import Mathlib

/- Verification of the BillBuster extraction pipeline and HTTP route handlers.
The compressor package (DocumentChunker, SlidingMemory, PointExtractor,
QueueManager, DocumentProcessor) ships only its README in this repository,
so those components are modelled from the spec; the bill route handlers are
embedded from src/backend/routes/bills.js. -/

namespace BillBuster


/- Modelled from the spec: DocumentChunker (the compressor source is missing
from the repository; only src/python/compressor/README.md is present).
The spec's algorithm: chunk i starts at i * (chunkSize - overlap) and ends at
min(start + chunkSize, len(text)); iteration stops once a chunk's end reaches
len(text); ConfigError unless 0 < overlap < chunkSize; EmptyDocumentError for
an empty document. -/

inductive ChunkError where
  | configError
  | emptyDocumentError
deriving DecidableEq, Repr

structure Chunk where
  index : Nat
  text : List Char
  startOffset : Nat
  endOffset : Nat
deriving DecidableEq, Repr

def sliceText (t : List Char) (s e : Nat) : List Char :=
  (t.drop s).take (e - s)

/-- Modelled from the spec: the chunking loop. `fuel` is an upper bound on the
number of chunks still to be produced (the caller passes `t.length + 1`, which
suffices because each chunk advances the start by `chunkSize - overlap ≥ 1`). -/
def chunkAux (t : List Char) (C O : Nat) : Nat → Nat → List Chunk
  | _, 0 => []
  | i, Nat.succ fuel =>
    let s := i * (C - O)
    let e := min (s + C) t.length
    if t.length ≤ e then
      [⟨i, sliceText t s e, s, e⟩]
    else
      ⟨i, sliceText t s e, s, e⟩ :: chunkAux t C O (i + 1) fuel

/-- Modelled from the spec: `chunk(text, chunkSize, overlap)`. Validates
`0 < overlap < chunkSize` (else `ConfigError`), rejects the empty document
(`EmptyDocumentError`), then runs the offset loop from chunk index 0. -/
def chunk (t : List Char) (C O : Nat) : Except ChunkError (List Chunk) :=
  if 0 < O ∧ O < C then
    if t.length = 0 then
      .error .emptyDocumentError
    else
      .ok (chunkAux t C O 0 (t.length + 1))
  else
    .error .configError

/-- Specification of a chunk list produced from starting index `i`:
nonempty, the j-th chunk has index `i+j`, start `(i+j)*(C-O)` and end
`min ((i+j)*(C-O)+C) L`; every non-final chunk's nominal end `(i+j)*(C-O)+C`
lies strictly below `L`; and the final chunk ends exactly at `L`. -/
def chunkListSpec (L C O : Nat) (i : Nat) (cs : List Chunk) : Prop :=
  cs ≠ [] ∧
  (∀ j (hj : j < cs.length),
      (cs.get ⟨j, hj⟩).index = i + j ∧
      (cs.get ⟨j, hj⟩).startOffset = (i + j) * (C - O) ∧
      (cs.get ⟨j, hj⟩).endOffset = min ((i + j) * (C - O) + C) L) ∧
  (∀ j, j + 1 < cs.length → (i + j) * (C - O) + C < L) ∧
  cs.getLast?.map Chunk.endOffset = some L

/- Modelled from the spec: the Point data model (section 3). The compressor
source is missing from the repository; the field list and the enums follow the
spec and src/python/compressor/README.md's point format. -/

inductive PointType where
  | funding
  | change
  | classification
  | requirement
  | permission
  | timeline
  | penalty
  | other
deriving DecidableEq, Repr

inductive Confidence where
  | low
  | medium
  | high
deriving DecidableEq, Repr

structure Point where
  pointType : PointType
  description : String
  entities : List String
  reference : String
  confidence : Confidence
  documentPath : String
  documentName : String
  chunkIndex : Nat
deriving DecidableEq, Repr

/-- Modelled from the spec: the normalization applied to a description before
hashing it for the dedup key (a concrete normalization standing in for
`normalizedDescriptionHash`; identity of the normalized text is what dedup
compares). -/
def normalizedDescription (s : String) : String :=
  ⟨(((s.data.dropWhile Char.isWhitespace).reverse.dropWhile
      Char.isWhitespace).reverse).map Char.toLower⟩

/-- Modelled from the spec: a Point's identity for dedup purposes is the tuple
(documentPath, chunkIndex, normalizedDescriptionHash). -/
def pointIdentity (p : Point) : String × Nat × String :=
  (p.documentPath, p.chunkIndex, normalizedDescription p.description)

/- Modelled from the spec: QueueManager. It deduplicates by the Point identity
tuple, delivers in enqueue order, and `drain` returns the delivered sequence. -/

structure QueueState where
  delivered : List Point
deriving DecidableEq, Repr

def QueueState.initial : QueueState := ⟨[]⟩

/-- Modelled from the spec: enqueue a single point — a no-op when a point with
the same identity tuple has already been delivered. -/
def enqueueOne (st : QueueState) (p : Point) : QueueState :=
  if st.delivered.any (fun q => pointIdentity q = pointIdentity p) then st
  else ⟨st.delivered ++ [p]⟩

/-- Modelled from the spec: `enqueue(points)` processes the batch in order. -/
def enqueue (st : QueueState) (ps : List Point) : QueueState :=
  ps.foldl enqueueOne st

/-- Modelled from the spec: `drain()` returns the delivered sequence. -/
def drain (st : QueueState) : List Point :=
  st.delivered

/-- No two points of the list share an identity tuple. -/
def IdDistinct (l : List Point) : Prop :=
  l.Pairwise (fun a b => pointIdentity a ≠ pointIdentity b)

/- Modelled from the spec: SlidingMemory (the compressor source is missing
from the repository). It keeps a bounded rolling list of point summaries —
derived only from the newly extracted points and the prior state, never from
raw chunk text — and discards older detail once the configured serialized-size
bound is reached, oldest first. -/

structure MemoryConfig where
  memoryWindowSize : Nat
  maxSummaryLen : Nat
deriving DecidableEq, Repr

structure MemoryState where
  summaries : List String
deriving DecidableEq, Repr

def SlidingMemory.initial : MemoryState := ⟨[]⟩

/-- Modelled from the spec: a point's summary is its description, truncated to
the configured summary length. -/
def summarize (cfg : MemoryConfig) (p : Point) : String :=
  ⟨p.description.data.take cfg.maxSummaryLen⟩

/-- Serialized footprint of one memory entry (its text plus one separator). -/
def entrySize (s : String) : Nat :=
  s.length + 1

def serializedSize (st : MemoryState) : Nat :=
  (st.summaries.map entrySize).sum

/-- The configured bound on the serialized memory size. -/
def memoryBound (cfg : MemoryConfig) : Nat :=
  cfg.memoryWindowSize * (cfg.maxSummaryLen + 1)

/-- Modelled from the spec: oldest-first eviction until the serialized size
fits the bound. -/
def evict (bound : Nat) : List String → List String
  | [] => []
  | s :: rest =>
    if (List.map entrySize (s :: rest)).sum ≤ bound then s :: rest
    else evict bound rest

/-- Modelled from the spec: `update(state, newPoints)` — a pure function of
the prior state and the newly extracted points (it takes no chunk text). -/
def SlidingMemory.update (cfg : MemoryConfig) (st : MemoryState)
    (newPoints : List Point) : MemoryState :=
  ⟨evict (memoryBound cfg) (st.summaries ++ newPoints.map (summarize cfg))⟩

/- Modelled from the spec: PointExtractor's outcome type and the
DocumentProcessor state machine (the compressor source is missing from the
repository). The language-model call, its retry/backoff and its schema
validation are abstracted as an extractor oracle `Chunk → MemoryState →
ExtractOutcome`: `serviceError` stands for a ServiceError whose retries are
exhausted, `parseError` for a schema-validation failure, `configError` for
missing credentials (fatal). The oracle returns raw point data; the pipeline
stamps each point with the document path, document name and chunk index. -/

structure RawPoint where
  pointType : PointType
  description : String
  entities : List String
  reference : String
  confidence : Confidence
deriving DecidableEq, Repr

inductive ExtractOutcome where
  | success (points : List RawPoint)
  | parseError
  | serviceError
  | configError
deriving DecidableEq, Repr

def stamp (docPath docName : String) (idx : Nat) (r : RawPoint) : Point :=
  ⟨r.pointType, r.description, r.entities, r.reference, r.confidence,
    docPath, docName, idx⟩

structure RunStats where
  chunksAttempted : Nat
  chunksSucceeded : Nat
  chunksFailed : Nat
  pointsEmitted : Nat
deriving DecidableEq, Repr

inductive ProcError where
  | configError
  | emptyDocumentError
deriving DecidableEq, Repr

/-- Modelled from the spec: pipeline configuration (chunking parameters and
the memory bound; model name, credentials, retry counts and timeouts live
inside the extractor oracle). -/
structure Config where
  chunkSize : Nat
  overlap : Nat
  memory : MemoryConfig
deriving DecidableEq, Repr

/-- Modelled from the spec: the Extracting loop of the DocumentProcessor
state machine. Each chunk is attempted in order; success enqueues the stamped
points and updates the sliding memory, ParseError and exhausted ServiceError
record a failed chunk and continue, ConfigError aborts the run (`none`). -/
def processChunks (cfg : Config) (docPath docName : String)
    (extract : Chunk → MemoryState → ExtractOutcome) :
    List Chunk → MemoryState → QueueState → RunStats →
    Option (QueueState × RunStats)
  | [], _, q, stats => some (q, stats)
  | c :: rest, mem, q, stats =>
    match extract c mem with
    | .success raws =>
        let pts := raws.map (stamp docPath docName c.index)
        processChunks cfg docPath docName extract rest
          (SlidingMemory.update cfg.memory mem pts)
          (enqueue q pts)
          { stats with
              chunksAttempted := stats.chunksAttempted + 1,
              chunksSucceeded := stats.chunksSucceeded + 1,
              pointsEmitted := stats.pointsEmitted + pts.length }
    | .parseError =>
        processChunks cfg docPath docName extract rest mem q
          { stats with
              chunksAttempted := stats.chunksAttempted + 1,
              chunksFailed := stats.chunksFailed + 1 }
    | .serviceError =>
        processChunks cfg docPath docName extract rest mem q
          { stats with
              chunksAttempted := stats.chunksAttempted + 1,
              chunksFailed := stats.chunksFailed + 1 }
    | .configError => none

/-- Modelled from the spec: `processDocument` — load (the text is the loaded
document), chunk, run the extraction loop from the initial memory and an
empty queue, and return the delivered points with the run stats; ConfigError
and EmptyDocumentError are fatal. -/
def processDocument (cfg : Config) (docPath docName : String)
    (text : List Char) (extract : Chunk → MemoryState → ExtractOutcome) :
    Except ProcError (List Point × RunStats) :=
  match chunk text cfg.chunkSize cfg.overlap with
  | .error .configError => .error .configError
  | .error .emptyDocumentError => .error .emptyDocumentError
  | .ok cs =>
    match processChunks cfg docPath docName extract cs SlidingMemory.initial
        QueueState.initial ⟨0, 0, 0, 0⟩ with
    | none => .error .configError
    | some (q, stats) => .ok (drain q, stats)

/-- The points produced by the successful chunks of a run, in document order:
for each chunk, the extractor's output at the memory state that chunk
actually sees, stamped with the document and the chunk's index; failed chunks
contribute nothing. -/
def successPoints (cfg : Config) (docPath docName : String)
    (extract : Chunk → MemoryState → ExtractOutcome) :
    List Chunk → MemoryState → List Point
  | [], _ => []
  | c :: rest, mem =>
    match extract c mem with
    | .success raws =>
        let pts := raws.map (stamp docPath docName c.index)
        pts ++ successPoints cfg docPath docName extract rest
          (SlidingMemory.update cfg.memory mem pts)
    | _ => successPoints cfg docPath docName extract rest mem

/-- The extractor oracle of the end-to-end scenario: chunk 0 succeeds with
two points, chunk 1 fails with ParseError, chunk 2 succeeds with one point. -/
def scenarioExtract : Chunk → MemoryState → ExtractOutcome :=
  fun c _ =>
    if c.index = 0 then
      .success [⟨.funding, "a", [], "s1", .high⟩,
                ⟨.change, "b", [], "s2", .medium⟩]
    else if c.index = 1 then .parseError
    else .success [⟨.timeline, "c", [], "s3", .low⟩]

/- Modelled from the spec: the interchange point record (spec section 6,
matching the Point Format of src/python/compressor/README.md) — a mapping
with exactly the fields point_type, description, entities, reference,
confidence, document_path, document_name, chunk_index — and the parser that
validates a record against the Point schema (enum membership for point_type
and confidence). -/

structure PointRecord where
  point_type : String
  description : String
  entities : List String
  reference : String
  confidence : String
  document_path : String
  document_name : String
  chunk_index : Nat
deriving DecidableEq, Repr

def pointTypeToString : PointType → String
  | .funding => "funding"
  | .change => "change"
  | .classification => "classification"
  | .requirement => "requirement"
  | .permission => "permission"
  | .timeline => "timeline"
  | .penalty => "penalty"
  | .other => "other"

def pointTypeOfString (s : String) : Option PointType :=
  if s = "funding" then some .funding
  else if s = "change" then some .change
  else if s = "classification" then some .classification
  else if s = "requirement" then some .requirement
  else if s = "permission" then some .permission
  else if s = "timeline" then some .timeline
  else if s = "penalty" then some .penalty
  else if s = "other" then some .other
  else none

def confidenceToString : Confidence → String
  | .low => "low"
  | .medium => "medium"
  | .high => "high"

def confidenceOfString (s : String) : Option Confidence :=
  if s = "low" then some .low
  else if s = "medium" then some .medium
  else if s = "high" then some .high
  else none

def exportPoint (p : Point) : PointRecord :=
  ⟨pointTypeToString p.pointType, p.description, p.entities, p.reference,
    confidenceToString p.confidence, p.documentPath, p.documentName,
    p.chunkIndex⟩

def exportPoints (ps : List Point) : List PointRecord :=
  ps.map exportPoint

def parsePoint (r : PointRecord) : Option Point :=
  match pointTypeOfString r.point_type, confidenceOfString r.confidence with
  | some pt, some cf =>
      some ⟨pt, r.description, r.entities, r.reference, cf,
        r.document_path, r.document_name, r.chunk_index⟩
  | _, _ => none

def parsePoints : List PointRecord → Option (List Point)
  | [] => some []
  | r :: rest =>
    match parsePoint r, parsePoints rest with
    | some p, some ps => some (p :: ps)
    | _, _ => none

/- Embedded from src/backend: the Bill schema (models/Bill.js, embedded in
db.js) and the route handlers of src/backend/routes/bills.js. Dates are
modelled as millisecond timestamps. -/

structure Bill where
  billUuid : String
  billId : String
  date : Nat
  isFederal : Bool
  state : String
  filePath : List String
  proposer : String
  status : String
  title : String
  citation : List String
  tags : List String
  summary : List String
  createdAt : Nat
  updatedAt : Nat
deriving DecidableEq, Repr

/-- The pre-save hook of Bill.js: saving sets updatedAt to the current time. -/
def saveBill (now : Nat) (b : Bill) : Bill :=
  { b with updatedAt := now }

inductive TagResponse where
  | badRequest (msg : String)
  | notFound (msg : String)
  | ok (bill : Bill)
deriving DecidableEq, Repr

/-- The POST /api/bills/:id/tags handler (routes/bills.js): 400 when the tag
is absent or empty (JS falsy), 404 when the bill does not exist, otherwise
push the tag and save only when `bill.tags` does not already include it, and
respond with the (possibly updated) bill. -/
def addTag (tag? : Option String) (bill? : Option Bill) (now : Nat) :
    TagResponse :=
  match tag? with
  | none => .badRequest "Tag is required"
  | some tag =>
    if tag = "" then .badRequest "Tag is required"
    else
      match bill? with
      | none => .notFound "Bill not found"
      | some bill =>
        if bill.tags.contains tag then .ok bill
        else .ok (saveBill now { bill with tags := bill.tags ++ [tag] })

inductive DownloadResponse where
  | notFoundBill
  | invalidIndex
  | fileNotFound (path : String)
  | fileStream (path : String)
deriving DecidableEq, Repr

/-- JavaScript's parseInt(s) with the radix unspecified: leading whitespace
is skipped, an optional sign is read, a 0x/0X prefix selects hexadecimal,
and the longest prefix of digits is converted; no digits means NaN (none). -/
def digitVal? (c : Char) : Option Nat :=
  if '0' ≤ c ∧ c ≤ '9' then some (c.toNat - '0'.toNat) else none

def hexVal? (c : Char) : Option Nat :=
  if '0' ≤ c ∧ c ≤ '9' then some (c.toNat - '0'.toNat)
  else if 'a' ≤ c ∧ c ≤ 'f' then some (c.toNat - 'a'.toNat + 10)
  else if 'A' ≤ c ∧ c ≤ 'F' then some (c.toNat - 'A'.toNat + 10)
  else none

def digitsVal (dv : Char → Option Nat) (base : Nat) :
    List Char → Option Nat → Option Nat
  | [], acc => acc
  | c :: rest, acc =>
    match dv c with
    | some d => digitsVal dv base rest (some (acc.getD 0 * base + d))
    | none => acc

def jsParseInt (s : String) : Option Int :=
  let cs := s.data.dropWhile Char.isWhitespace
  let signed : Int × List Char :=
    match cs with
    | '-' :: rest => (-1, rest)
    | '+' :: rest => (1, rest)
    | _ => (1, cs)
  let mag : Option Nat :=
    match signed.2 with
    | '0' :: 'x' :: rest => digitsVal hexVal? 16 rest none
    | '0' :: 'X' :: rest => digitsVal hexVal? 16 rest none
    | _ => digitsVal digitVal? 10 signed.2 none
  mag.map (fun n => signed.1 * n)

/-- The GET /api/bills/:id/download/:fileIndex handler (routes/bills.js):
404 when the bill does not exist; 400 'Invalid file index' when
parseInt(fileIndex) is NaN, negative, or at least bill.filePath.length;
otherwise look up the indexed path and stream it when it exists on disk
(the filesystem is the oracle `fsExists`). -/
def downloadFile (bill? : Option Bill) (fileIndexParam : String)
    (fsExists : String → Bool) : DownloadResponse :=
  match bill? with
  | none => .notFoundBill
  | some bill =>
    match jsParseInt fileIndexParam with
    | none => .invalidIndex
    | some i =>
      if i < 0 ∨ (bill.filePath.length : Int) ≤ i then .invalidIndex
      else
        let filePath := bill.filePath.getD i.toNat ""
        if fsExists filePath then .fileStream filePath
        else .fileNotFound filePath

lemma chunkAux_succ (t : List Char) (C O i fuel : Nat) :
    chunkAux t C O i (fuel + 1) =
      (let s := i * (C - O)
       let e := min (s + C) t.length
       if t.length ≤ e then
         [⟨i, sliceText t s e, s, e⟩]
       else
         ⟨i, sliceText t s e, s, e⟩ :: chunkAux t C O (i + 1) fuel) := rfl

lemma chunkAux_spec (t : List Char) (C O : Nat) :
    ∀ fuel i, i * (C - O) < t.length →
      t.length ≤ i * (C - O) + fuel * (C - O) →
      chunkListSpec t.length C O i (chunkAux t C O i fuel) := by
  intro fuel
  induction fuel with
  | zero =>
      intro i hi hf
      rw [Nat.zero_mul, Nat.add_zero] at hf
      exact absurd (Nat.lt_of_le_of_lt hf hi) (lt_irrefl _)
  | succ fuel ih =>
      intro i hi hf
      rw [chunkAux_succ]
      simp only []
      by_cases hend : t.length ≤ min (i * (C - O) + C) t.length
      · rw [if_pos hend]
        have hEq : min (i * (C - O) + C) t.length = t.length :=
          Nat.le_antisymm (Nat.min_le_right _ _) hend
        refine ⟨by simp, ?_, ?_, ?_⟩
        · intro j hj
          have hj0 : j = 0 := by simpa using hj
          subst hj0
          refine ⟨by simp, by simp, ?_⟩
          simp
        · intro j hj
          simp at hj
        · simp [hEq]
      · rw [if_neg hend]
        have hlt : i * (C - O) + C < t.length := by
          rcases Nat.lt_or_ge (i * (C - O) + C) t.length with h | h
          · exact h
          · exact absurd (Nat.le_min.mpr ⟨h, le_refl _⟩) hend
        have hstep_le : C - O ≤ C := Nat.sub_le _ _
        have hi' : (i + 1) * (C - O) < t.length := by
          calc (i + 1) * (C - O) = i * (C - O) + 1 * (C - O) := by
                rw [Nat.add_mul]
            _ = i * (C - O) + (C - O) := by rw [Nat.one_mul]
            _ ≤ i * (C - O) + C := Nat.add_le_add_left hstep_le _
            _ < t.length := hlt
        have hf' : t.length ≤ (i + 1) * (C - O) + fuel * (C - O) := by
          have : (i + 1) * (C - O) + fuel * (C - O)
              = i * (C - O) + (fuel + 1) * (C - O) := by ring
          rw [this]
          exact hf
        obtain ⟨hne, hget, hmid, hlast⟩ := ih (i + 1) hi' hf'
        refine ⟨by simp, ?_, ?_, ?_⟩
        · intro j hj
          match j with
          | 0 =>
              refine ⟨by simp, by simp, ?_⟩
              simp
          | Nat.succ j' =>
              have hj' : j' < (chunkAux t C O (i + 1) fuel).length := by
                simpa using hj
              have hidx : i + 1 + j' = i + (j' + 1) := by omega
              have := hget j' hj'
              rw [hidx] at this
              simpa using this
        · intro j hj
          match j with
          | 0 => simpa using hlt
          | Nat.succ j' =>
              have hj' : j' + 1 < (chunkAux t C O (i + 1) fuel).length := by
                simpa using hj
              have := hmid j' hj'
              have hidx : i + 1 + j' = i + (j' + 1) := by omega
              rw [hidx] at this
              exact this
        · rcases hx : chunkAux t C O (i + 1) fuel with _ | ⟨b, l⟩
          · exact absurd hx hne
          · rw [hx] at hlast
            simpa using hlast

lemma chunk_ok (t : List Char) (C O : Nat) (hL : 0 < t.length) (hO : 0 < O)
    (hOC : O < C) :
    chunk t C O = .ok (chunkAux t C O 0 (t.length + 1)) := by
  rw [chunk, if_pos ⟨hO, hOC⟩, if_neg (Nat.pos_iff_ne_zero.mp hL)]

lemma chunk_ok_spec (t : List Char) (C O : Nat) (hL : 0 < t.length) (_hO : 0 < O)
    (hOC : O < C) :
    chunkListSpec t.length C O 0 (chunkAux t C O 0 (t.length + 1)) := by
  have hstep : 0 < C - O := Nat.sub_pos_of_lt hOC
  apply chunkAux_spec
  · rw [Nat.zero_mul]; exact hL
  · rw [Nat.zero_mul, Nat.zero_add]
    calc t.length ≤ t.length + 1 := Nat.le_succ _
      _ = (t.length + 1) * 1 := by rw [Nat.mul_one]
      _ ≤ (t.length + 1) * (C - O) := Nat.mul_le_mul_left _ hstep

/-- C1: for every nonempty text and every configuration with
0 < overlap < chunkSize, chunk i spans character offsets
[i*(C-O), min(i*(C-O)+C, L)), chunk indices are contiguous from 0, the chunks
cover [0, L) with no gaps (the first chunk starts at offset 0, the last ends
at L, and each chunk's successor starts exactly O characters before the
chunk's end), and every pair of consecutive chunks overlaps by exactly O;
moreover chunking any length-5000 text with chunkSize 2000 and overlap 200
yields exactly the three chunks [0,2000), [1800,3800), [3600,5000). -/
theorem chunk_spans_cover_overlap :
    (∀ (t : List Char) (C O : Nat), 0 < t.length → 0 < O → O < C →
      ∃ cs, chunk t C O = .ok cs ∧ cs ≠ [] ∧
        (∀ j (hj : j < cs.length),
            (cs.get ⟨j, hj⟩).index = j ∧
            (cs.get ⟨j, hj⟩).startOffset = j * (C - O) ∧
            (cs.get ⟨j, hj⟩).endOffset = min (j * (C - O) + C) t.length) ∧
        cs.head?.map Chunk.startOffset = some 0 ∧
        cs.getLast?.map Chunk.endOffset = some t.length ∧
        (∀ j (hj : j + 1 < cs.length),
            (cs.get ⟨j + 1, hj⟩).startOffset + O
              = (cs.get ⟨j, Nat.lt_of_succ_lt hj⟩).endOffset ∧
            (cs.get ⟨j, Nat.lt_of_succ_lt hj⟩).endOffset
              ≤ (cs.get ⟨j + 1, hj⟩).endOffset)) ∧
    (∀ t : List Char, t.length = 5000 →
      (chunk t 2000 200).map
          (fun cs => cs.map (fun c => (c.index, c.startOffset, c.endOffset)))
        = .ok [(0, 0, 2000), (1, 1800, 3800), (2, 3600, 5000)]) := by
  constructor
  · intro t C O hL hO hOC
    obtain ⟨hne, hget, hmid, hlast⟩ := chunk_ok_spec t C O hL hO hOC
    refine ⟨chunkAux t C O 0 (t.length + 1), chunk_ok t C O hL hO hOC, hne,
      ?_, ?_, hlast, ?_⟩
    · intro j hj
      have := hget j hj
      simpa using this
    · rcases hx : chunkAux t C O 0 (t.length + 1) with _ | ⟨c, l⟩
      · exact absurd hx hne
      · have h0 : 0 < (chunkAux t C O 0 (t.length + 1)).length := by
          rw [hx]; simp
        have := (hget 0 h0).2.1
        have hc : (chunkAux t C O 0 (t.length + 1)).get ⟨0, h0⟩ = c := by
          simp [hx]
        rw [hc] at this
        simp [hx, this]
    · intro j hj
      have hj1 : j < (chunkAux t C O 0 (t.length + 1)).length :=
        Nat.lt_of_succ_lt hj
      obtain ⟨-, -, hej⟩ := hget j hj1
      obtain ⟨-, hsj1, hej1⟩ := hget (j + 1) hj
      have hmidj : (0 + j) * (C - O) + C < t.length := hmid j hj
      have hejv : ((chunkAux t C O 0 (t.length + 1)).get ⟨j, hj1⟩).endOffset
          = (0 + j) * (C - O) + C := by
        rw [hej]
        exact Nat.min_eq_left (Nat.le_of_lt hmidj)
      constructor
      · rw [hsj1, hejv]
        have hexp : (0 + (j + 1)) * (C - O) = (0 + j) * (C - O) + (C - O) := by
          rw [Nat.zero_add, Nat.zero_add, Nat.add_mul, Nat.one_mul]
        rw [hexp, Nat.add_assoc, Nat.sub_add_cancel (Nat.le_of_lt hOC)]
      · rw [hejv, hej1]
        refine Nat.le_min.mpr ⟨?_, Nat.le_of_lt hmidj⟩
        exact Nat.add_le_add_right
          (Nat.mul_le_mul_right _ (by omega : 0 + j ≤ 0 + (j + 1))) _
  · intro t ht
    have h1 : chunk t 2000 200 = .ok (chunkAux t 2000 200 0 (5000 + 1)) := by
      rw [chunk, if_pos (by norm_num), if_neg (by rw [ht]; norm_num), ht]
    have s1 : chunkAux t 2000 200 0 (5000 + 1)
        = ⟨0, sliceText t 0 2000, 0, 2000⟩ :: chunkAux t 2000 200 (0 + 1) 5000 := by
      rw [chunkAux_succ]
      simp [ht, Nat.min_def]
    have h5000 : (5000 : Nat) = 4999 + 1 := by norm_num
    have s2 : chunkAux t 2000 200 (0 + 1) 5000
        = ⟨1, sliceText t 1800 3800, 1800, 3800⟩ :: chunkAux t 2000 200 (1 + 1) 4999 := by
      rw [h5000, chunkAux_succ]
      norm_num
      simp [ht, Nat.min_def, sliceText]
    have h4999 : (4999 : Nat) = 4998 + 1 := by norm_num
    have s3 : chunkAux t 2000 200 (1 + 1) 4999
        = [⟨2, sliceText t 3600 5000, 3600, 5000⟩] := by
      rw [h4999, chunkAux_succ]
      norm_num
      simp [ht, Nat.min_def, sliceText]
    rw [h1, s1, s2, s3]
    simp [Except.map]

/-- Witness for C1: the length-5000 scenario instantiated at a concrete text. -/
theorem chunk_spans_cover_overlap_witness :
    (chunk (List.replicate 5000 'a') 2000 200).map
        (fun cs => cs.map (fun c => (c.index, c.startOffset, c.endOffset)))
      = .ok [(0, 0, 2000), (1, 1800, 3800), (2, 3600, 5000)] :=
  chunk_spans_cover_overlap.2 (List.replicate 5000 'a')
    (by rw [List.length_replicate])

lemma enqueue_cons (st : QueueState) (p : Point) (ps : List Point) :
    enqueue st (p :: ps) = enqueue (enqueueOne st p) ps := rfl

lemma enqueueOne_of_mem (st : QueueState) (p : Point)
    (h : pointIdentity p ∈ st.delivered.map pointIdentity) :
    enqueueOne st p = st := by
  rw [enqueueOne, if_pos]
  rw [List.any_eq_true]
  obtain ⟨q, hq, hid⟩ := List.mem_map.mp h
  exact ⟨q, hq, by simp [hid]⟩

lemma enqueueOne_delivered (st : QueueState) (p : Point) :
    (enqueueOne st p).delivered = st.delivered
      ∨ (enqueueOne st p).delivered = st.delivered ++ [p] := by
  rw [enqueueOne]
  by_cases h : st.delivered.any (fun q => pointIdentity q = pointIdentity p)
  · rw [if_pos h]; exact Or.inl rfl
  · rw [if_neg h]; exact Or.inr rfl

lemma mem_id_enqueueOne_self (st : QueueState) (p : Point) :
    pointIdentity p ∈ (enqueueOne st p).delivered.map pointIdentity := by
  rw [enqueueOne]
  by_cases h : st.delivered.any (fun q => pointIdentity q = pointIdentity p)
  · rw [if_pos h]
    rw [List.any_eq_true] at h
    obtain ⟨q, hq, hid⟩ := h
    simp only [decide_eq_true_eq] at hid
    exact List.mem_map.mpr ⟨q, hq, hid⟩
  · rw [if_neg h]
    simp

lemma mem_id_enqueueOne_mono (st : QueueState) (q : Point)
    (x : String × Nat × String) (h : x ∈ st.delivered.map pointIdentity) :
    x ∈ (enqueueOne st q).delivered.map pointIdentity := by
  rcases enqueueOne_delivered st q with hc | hc <;> rw [hc]
  · exact h
  · simp only [List.map_append, List.mem_append]
    exact Or.inl h

lemma mem_id_enqueue_mono (ps : List Point) :
    ∀ (st : QueueState) (x : String × Nat × String),
      x ∈ st.delivered.map pointIdentity →
      x ∈ (enqueue st ps).delivered.map pointIdentity := by
  induction ps with
  | nil => intro st x h; exact h
  | cons p rest ih =>
      intro st x h
      rw [enqueue_cons]
      exact ih _ x (mem_id_enqueueOne_mono st p x h)

lemma mem_id_enqueue (ps : List Point) :
    ∀ (st : QueueState) (p : Point), p ∈ ps →
      pointIdentity p ∈ (enqueue st ps).delivered.map pointIdentity := by
  induction ps with
  | nil => intro st p h; exact absurd h (List.not_mem_nil p)
  | cons q rest ih =>
      intro st p h
      rw [enqueue_cons]
      rcases List.mem_cons.mp h with h | h
      · subst h
        exact mem_id_enqueue_mono rest _ _ (mem_id_enqueueOne_self st p)
      · exact ih _ p h

lemma enqueue_of_forall_mem (ps : List Point) :
    ∀ (st : QueueState),
      (∀ p ∈ ps, pointIdentity p ∈ st.delivered.map pointIdentity) →
      enqueue st ps = st := by
  induction ps with
  | nil => intro st _; rfl
  | cons p rest ih =>
      intro st h
      rw [enqueue_cons, enqueueOne_of_mem st p (h p (List.mem_cons_self p rest))]
      exact ih st (fun q hq => h q (List.mem_cons_of_mem p hq))

lemma idDistinct_enqueueOne (st : QueueState) (p : Point)
    (h : IdDistinct st.delivered) : IdDistinct (enqueueOne st p).delivered := by
  rw [enqueueOne]
  by_cases hc : st.delivered.any (fun q => pointIdentity q = pointIdentity p)
  · rw [if_pos hc]; exact h
  · rw [if_neg hc]
    rw [IdDistinct, List.pairwise_append]
    refine ⟨h, List.pairwise_singleton _ _, ?_⟩
    intro a ha b hb
    have hb' : b = p := List.mem_singleton.mp hb
    subst hb'
    intro hab
    rw [List.any_eq_true] at hc
    exact hc ⟨a, ha, by simp [hab]⟩

lemma idDistinct_enqueue (ps : List Point) :
    ∀ (st : QueueState), IdDistinct st.delivered →
      IdDistinct (enqueue st ps).delivered := by
  induction ps with
  | nil => intro st h; exact h
  | cons p rest ih =>
      intro st h
      rw [enqueue_cons]
      exact ih _ (idDistinct_enqueueOne st p h)

/-- C2: enqueueing a point whose identity tuple is already delivered is a
no-op; the delivered output never contains two points with equal identity
tuples (given it starts that way, as it does from the empty initial queue);
and repeating an enqueue of the same batch leaves the delivered sequence
exactly as after the first enqueue. -/
theorem queue_dedup_idempotent :
    ∀ (st : QueueState) (ps : List Point),
      (∀ p q, q ∈ st.delivered → pointIdentity p = pointIdentity q →
        enqueueOne st p = st) ∧
      (IdDistinct st.delivered → IdDistinct (drain (enqueue st ps))) ∧
      enqueue (enqueue st ps) ps = enqueue st ps := by
  intro st ps
  refine ⟨?_, ?_, ?_⟩
  · intro p q hq hid
    exact enqueueOne_of_mem st p (hid ▸ List.mem_map.mpr ⟨q, hq, rfl⟩)
  · exact idDistinct_enqueue ps st
  · exact enqueue_of_forall_mem ps (enqueue st ps)
      (fun p hp => mem_id_enqueue ps st p hp)

/-- Witness for C2: a concrete enqueue repeated on a one-point batch, with the
distinctness hypothesis discharged at the empty queue. -/
theorem queue_dedup_idempotent_witness :
    (IdDistinct (drain (enqueue QueueState.initial
        [⟨.funding, "d", [], "r", .high, "p", "n", 0⟩])) ∧
      enqueue (enqueue QueueState.initial
          [⟨.funding, "d", [], "r", .high, "p", "n", 0⟩])
        [⟨.funding, "d", [], "r", .high, "p", "n", 0⟩]
        = enqueue QueueState.initial
            [⟨.funding, "d", [], "r", .high, "p", "n", 0⟩]) :=
  ⟨(queue_dedup_idempotent QueueState.initial
      [⟨.funding, "d", [], "r", .high, "p", "n", 0⟩]).2.1
        (List.Pairwise.nil),
    (queue_dedup_idempotent QueueState.initial
      [⟨.funding, "d", [], "r", .high, "p", "n", 0⟩]).2.2⟩

lemma evict_size_le (bound : Nat) :
    ∀ l : List String, (List.map entrySize (evict bound l)).sum ≤ bound := by
  intro l
  induction l with
  | nil => simp [evict]
  | cons s rest ih =>
      rw [evict]
      by_cases h : (List.map entrySize (s :: rest)).sum ≤ bound
      · rw [if_pos h]; exact h
      · rw [if_neg h]; exact ih

/-- C6: SlidingMemory.update is deterministic — two invocations on identical
(state, newPoints) inputs produce identical resulting memory states; `update`
is a pure function of its arguments. -/
theorem update_deterministic :
    ∀ (cfg : MemoryConfig) (s₁ s₂ : MemoryState) (ps₁ ps₂ : List Point),
      s₁ = s₂ → ps₁ = ps₂ →
      SlidingMemory.update cfg s₁ ps₁ = SlidingMemory.update cfg s₂ ps₂ := by
  intro cfg s₁ s₂ ps₁ ps₂ h1 h2
  rw [h1, h2]

/-- Witness for C6: two invocations on a concrete identical input. -/
theorem update_deterministic_witness :
    SlidingMemory.update ⟨3, 10⟩ ⟨["prior"]⟩
        [⟨.funding, "d", [], "r", .high, "p", "n", 0⟩]
      = SlidingMemory.update ⟨3, 10⟩ ⟨["prior"]⟩
        [⟨.funding, "d", [], "r", .high, "p", "n", 0⟩] :=
  update_deterministic ⟨3, 10⟩ ⟨["prior"]⟩ ⟨["prior"]⟩
    [⟨.funding, "d", [], "r", .high, "p", "n", 0⟩]
    [⟨.funding, "d", [], "r", .high, "p", "n", 0⟩] rfl rfl

/-- C7: the memory size bound is an invariant — the initial state satisfies
it, and `update` on any state within the bound (indeed on any state at all)
returns a state whose serialized size is within the configured bound; the
result depends only on the prior state and the new points, `update` taking no
chunk text at all, so the bound holds regardless of document length. -/
theorem memory_bound_invariant :
    ∀ cfg : MemoryConfig,
      serializedSize SlidingMemory.initial ≤ memoryBound cfg ∧
      ∀ (st : MemoryState) (ps : List Point),
        serializedSize st ≤ memoryBound cfg →
        serializedSize (SlidingMemory.update cfg st ps) ≤ memoryBound cfg := by
  intro cfg
  constructor
  · exact Nat.zero_le _
  · intro st ps _
    exact evict_size_le (memoryBound cfg) _

/-- Witness for C7: the bound checked at a concrete configuration, state and
point batch. -/
theorem memory_bound_invariant_witness :
    serializedSize (SlidingMemory.update ⟨2, 5⟩ ⟨["abc"]⟩
        [⟨.funding, "long description", [], "r", .high, "p", "n", 0⟩])
      ≤ memoryBound ⟨2, 5⟩ :=
  (memory_bound_invariant ⟨2, 5⟩).2 ⟨["abc"]⟩
    [⟨.funding, "long description", [], "r", .high, "p", "n", 0⟩]
    (by decide)

lemma processChunks_cons_success (cfg : Config) (dp dn : String)
    (extract : Chunk → MemoryState → ExtractOutcome) (c : Chunk)
    (rest : List Chunk) (mem : MemoryState) (q : QueueState) (stats : RunStats)
    (raws : List RawPoint) (hx : extract c mem = .success raws) :
    processChunks cfg dp dn extract (c :: rest) mem q stats
      = processChunks cfg dp dn extract rest
          (SlidingMemory.update cfg.memory mem (raws.map (stamp dp dn c.index)))
          (enqueue q (raws.map (stamp dp dn c.index)))
          { stats with
              chunksAttempted := stats.chunksAttempted + 1,
              chunksSucceeded := stats.chunksSucceeded + 1,
              pointsEmitted := stats.pointsEmitted
                + (raws.map (stamp dp dn c.index)).length } := by
  simp only [processChunks, hx]

lemma processChunks_cons_parseError (cfg : Config) (dp dn : String)
    (extract : Chunk → MemoryState → ExtractOutcome) (c : Chunk)
    (rest : List Chunk) (mem : MemoryState) (q : QueueState) (stats : RunStats)
    (hx : extract c mem = .parseError) :
    processChunks cfg dp dn extract (c :: rest) mem q stats
      = processChunks cfg dp dn extract rest mem q
          { stats with
              chunksAttempted := stats.chunksAttempted + 1,
              chunksFailed := stats.chunksFailed + 1 } := by
  simp only [processChunks, hx]

lemma processChunks_cons_serviceError (cfg : Config) (dp dn : String)
    (extract : Chunk → MemoryState → ExtractOutcome) (c : Chunk)
    (rest : List Chunk) (mem : MemoryState) (q : QueueState) (stats : RunStats)
    (hx : extract c mem = .serviceError) :
    processChunks cfg dp dn extract (c :: rest) mem q stats
      = processChunks cfg dp dn extract rest mem q
          { stats with
              chunksAttempted := stats.chunksAttempted + 1,
              chunksFailed := stats.chunksFailed + 1 } := by
  simp only [processChunks, hx]

lemma processChunks_cons_configError (cfg : Config) (dp dn : String)
    (extract : Chunk → MemoryState → ExtractOutcome) (c : Chunk)
    (rest : List Chunk) (mem : MemoryState) (q : QueueState) (stats : RunStats)
    (hx : extract c mem = .configError) :
    processChunks cfg dp dn extract (c :: rest) mem q stats = none := by
  simp only [processChunks, hx]

lemma successPoints_cons_success (cfg : Config) (dp dn : String)
    (extract : Chunk → MemoryState → ExtractOutcome) (c : Chunk)
    (rest : List Chunk) (mem : MemoryState)
    (raws : List RawPoint) (hx : extract c mem = .success raws) :
    successPoints cfg dp dn extract (c :: rest) mem
      = raws.map (stamp dp dn c.index)
        ++ successPoints cfg dp dn extract rest
            (SlidingMemory.update cfg.memory mem
              (raws.map (stamp dp dn c.index))) := by
  simp only [successPoints, hx]

lemma successPoints_cons_parseError (cfg : Config) (dp dn : String)
    (extract : Chunk → MemoryState → ExtractOutcome) (c : Chunk)
    (rest : List Chunk) (mem : MemoryState) (hx : extract c mem = .parseError) :
    successPoints cfg dp dn extract (c :: rest) mem
      = successPoints cfg dp dn extract rest mem := by
  simp only [successPoints, hx]

lemma successPoints_cons_serviceError (cfg : Config) (dp dn : String)
    (extract : Chunk → MemoryState → ExtractOutcome) (c : Chunk)
    (rest : List Chunk) (mem : MemoryState)
    (hx : extract c mem = .serviceError) :
    successPoints cfg dp dn extract (c :: rest) mem
      = successPoints cfg dp dn extract rest mem := by
  simp only [successPoints, hx]

lemma enqueue_delivered_decomp :
    ∀ (ps : List Point) (st : QueueState),
      ∃ extra, (enqueue st ps).delivered = st.delivered ++ extra
        ∧ List.Sublist extra ps := by
  intro ps
  induction ps with
  | nil =>
      intro st
      exact ⟨[], by simp [enqueue], List.Sublist.refl _⟩
  | cons p rest ih =>
      intro st
      rw [enqueue_cons]
      obtain ⟨extra, he, hs⟩ := ih (enqueueOne st p)
      rcases enqueueOne_delivered st p with hc | hc
      · exact ⟨extra, by rw [he, hc], hs.cons p⟩
      · refine ⟨p :: extra, ?_, hs.cons₂ p⟩
        rw [he, hc, List.append_assoc]
        rfl

lemma processChunks_spec (cfg : Config) (dp dn : String)
    (extract : Chunk → MemoryState → ExtractOutcome)
    (hnc : ∀ c m, extract c m ≠ .configError) :
    ∀ (cs : List Chunk) (mem : MemoryState) (q : QueueState)
      (stats : RunStats),
      ∃ q' stats',
        processChunks cfg dp dn extract cs mem q stats = some (q', stats') ∧
        stats'.chunksAttempted = stats.chunksAttempted + cs.length ∧
        stats'.chunksSucceeded + stats'.chunksFailed
          = stats.chunksSucceeded + stats.chunksFailed + cs.length ∧
        stats'.pointsEmitted = stats.pointsEmitted
          + (successPoints cfg dp dn extract cs mem).length ∧
        ∃ extra, q'.delivered = q.delivered ++ extra ∧
          List.Sublist extra (successPoints cfg dp dn extract cs mem) := by
  intro cs
  induction cs with
  | nil =>
      intro mem q stats
      exact ⟨q, stats, rfl, by simp, by simp, by simp [successPoints],
        ⟨[], by simp, by simp [successPoints]⟩⟩
  | cons c rest ih =>
      intro mem q stats
      cases hx : extract c mem with
      | success raws =>
          obtain ⟨q', stats', hrun, h1, h2, h3, extra, he, hsub⟩ :=
            ih (SlidingMemory.update cfg.memory mem
                (raws.map (stamp dp dn c.index)))
              (enqueue q (raws.map (stamp dp dn c.index)))
              { stats with
                  chunksAttempted := stats.chunksAttempted + 1,
                  chunksSucceeded := stats.chunksSucceeded + 1,
                  pointsEmitted := stats.pointsEmitted
                    + (raws.map (stamp dp dn c.index)).length }
          obtain ⟨e1, he1, hs1⟩ :=
            enqueue_delivered_decomp (raws.map (stamp dp dn c.index)) q
          refine ⟨q', stats', ?_, ?_, ?_, ?_, e1 ++ extra, ?_, ?_⟩
          · rw [processChunks_cons_success cfg dp dn extract c rest mem q stats
              raws hx]
            exact hrun
          · rw [h1]; simp; omega
          · rw [h2]; simp; omega
          · rw [h3,
              successPoints_cons_success cfg dp dn extract c rest mem raws hx]
            simp
            omega
          · rw [he, he1, List.append_assoc]
          · rw [successPoints_cons_success cfg dp dn extract c rest mem raws hx]
            exact List.Sublist.append hs1 hsub
      | parseError =>
          obtain ⟨q', stats', hrun, h1, h2, h3, extra, he, hsub⟩ :=
            ih mem q
              { stats with
                  chunksAttempted := stats.chunksAttempted + 1,
                  chunksFailed := stats.chunksFailed + 1 }
          refine ⟨q', stats', ?_, ?_, ?_, ?_, extra, he, ?_⟩
          · rw [processChunks_cons_parseError cfg dp dn extract c rest mem q
              stats hx]
            exact hrun
          · rw [h1]; simp; omega
          · rw [h2]; simp; omega
          · rw [h3,
              successPoints_cons_parseError cfg dp dn extract c rest mem hx]
          · rw [successPoints_cons_parseError cfg dp dn extract c rest mem hx]
            exact hsub
      | serviceError =>
          obtain ⟨q', stats', hrun, h1, h2, h3, extra, he, hsub⟩ :=
            ih mem q
              { stats with
                  chunksAttempted := stats.chunksAttempted + 1,
                  chunksFailed := stats.chunksFailed + 1 }
          refine ⟨q', stats', ?_, ?_, ?_, ?_, extra, he, ?_⟩
          · rw [processChunks_cons_serviceError cfg dp dn extract c rest mem q
              stats hx]
            exact hrun
          · rw [h1]; simp; omega
          · rw [h2]; simp; omega
          · rw [h3,
              successPoints_cons_serviceError cfg dp dn extract c rest mem hx]
          · rw [successPoints_cons_serviceError cfg dp dn extract c rest mem hx]
            exact hsub
      | configError => exact absurd hx (hnc c mem)

lemma chunk_ok_inv (t : List Char) (C O : Nat) (cs : List Chunk)
    (h : chunk t C O = .ok cs) :
    (0 < O ∧ O < C) ∧ 0 < t.length
      ∧ cs = chunkAux t C O 0 (t.length + 1) := by
  rw [chunk] at h
  by_cases h1 : 0 < O ∧ O < C
  · rw [if_pos h1] at h
    by_cases h2 : t.length = 0
    · rw [if_pos h2] at h
      exact absurd h (by simp)
    · rw [if_neg h2] at h
      injection h with h
      exact ⟨h1, Nat.pos_of_ne_zero h2, h.symm⟩
  · rw [if_neg h1] at h
    exact absurd h (by simp)

/-- C3: when chunking succeeds and the extractor never raises ConfigError,
processDocument attempts every chunk and completes (Done) even when zero
chunks succeed; the stats satisfy chunksAttempted = number of chunks =
chunksSucceeded + chunksFailed, pointsEmitted is the number of points the
successful chunks produced, and every delivered point comes from a successful
chunk; in the 3-chunk scenario (chunk 0 succeeds with two points, chunk 1
fails with ParseError, chunk 2 succeeds with one point) the stats are
{3, 2, 1, 3} and the delivered points carry chunk_index values 0, 0, 2. -/
theorem processDocument_accounts :
    (∀ (cfg : Config) (dp dn : String) (text : List Char)
        (extract : Chunk → MemoryState → ExtractOutcome) (cs : List Chunk),
      (∀ c m, extract c m ≠ .configError) →
      chunk text cfg.chunkSize cfg.overlap = .ok cs →
      ∃ pts stats,
        processDocument cfg dp dn text extract = .ok (pts, stats) ∧
        stats.chunksAttempted = cs.length ∧
        stats.chunksAttempted = stats.chunksSucceeded + stats.chunksFailed ∧
        stats.pointsEmitted
          = (successPoints cfg dp dn extract cs SlidingMemory.initial).length ∧
        ∀ p ∈ pts,
          p ∈ successPoints cfg dp dn extract cs SlidingMemory.initial) ∧
    (processDocument ⟨3, 1, ⟨2, 10⟩⟩ "p" "n" ['a', 'b', 'c', 'd', 'e', 'f']
        scenarioExtract
      = .ok ([⟨.funding, "a", [], "s1", .high, "p", "n", 0⟩,
              ⟨.change, "b", [], "s2", .medium, "p", "n", 0⟩,
              ⟨.timeline, "c", [], "s3", .low, "p", "n", 2⟩],
             ⟨3, 2, 1, 3⟩) ∧
      [⟨.funding, "a", [], "s1", .high, "p", "n", 0⟩,
       ⟨.change, "b", [], "s2", .medium, "p", "n", 0⟩,
       ⟨.timeline, "c", [], "s3", .low, "p", "n", 2⟩].map Point.chunkIndex
        = [0, 0, 2]) := by
  constructor
  · intro cfg dp dn text extract cs hnc hchunk
    obtain ⟨q', stats', hrun, h1, h2, h3, extra, he, hsub⟩ :=
      processChunks_spec cfg dp dn extract hnc cs SlidingMemory.initial
        QueueState.initial ⟨0, 0, 0, 0⟩
    refine ⟨drain q', stats', ?_, ?_, ?_, ?_, ?_⟩
    · simp only [processDocument, hchunk, hrun]
    · rw [h1]; simp
    · rw [h1, h2]; simp
    · rw [h3]; simp
    · intro p hp
      rw [drain, he] at hp
      simp only [QueueState.initial, List.nil_append] at hp
      exact hsub.subset hp
  · exact ⟨by rfl, by rfl⟩

/-- Witness for C3: the general part applied to the concrete scenario inputs,
its hypotheses discharged there. -/
theorem processDocument_accounts_witness :
    (processDocument ⟨3, 1, ⟨2, 10⟩⟩ "p" "n" ['a', 'b', 'c', 'd', 'e', 'f']
        scenarioExtract).toOption.isSome = true := by
  have hnc : ∀ c m, scenarioExtract c m ≠ .configError := by
    intro c m
    rw [scenarioExtract]
    by_cases h0 : c.index = 0
    · simp [h0]
    · by_cases h1 : c.index = 1 <;> simp [h0, h1]
  obtain ⟨pts, stats, h, -, -, -, -⟩ :=
    processDocument_accounts.1 ⟨3, 1, ⟨2, 10⟩⟩ "p" "n"
      ['a', 'b', 'c', 'd', 'e', 'f'] scenarioExtract
      (chunkAux ['a', 'b', 'c', 'd', 'e', 'f'] 3 1 0 7) hnc (by rfl)
  rw [h]
  rfl

/-- C4: chunk fails with ConfigError whenever 0 < overlap < chunkSize is
violated, emits no chunks for the empty text and fails with
EmptyDocumentError instead, and processDocument on an empty document returns
EmptyDocumentError (aborting before any chunk is attempted). -/
theorem chunk_config_empty_errors :
    (∀ (t : List Char) (C O : Nat), ¬(0 < O ∧ O < C) →
      chunk t C O = .error .configError) ∧
    (∀ C O : Nat, 0 < O → O < C →
      chunk ([] : List Char) C O = .error .emptyDocumentError) ∧
    (∀ (cfg : Config) (dp dn : String)
        (extract : Chunk → MemoryState → ExtractOutcome),
      0 < cfg.overlap → cfg.overlap < cfg.chunkSize →
      processDocument cfg dp dn [] extract = .error .emptyDocumentError) := by
  refine ⟨?_, ?_, ?_⟩
  · intro t C O h
    rw [chunk, if_neg h]
  · intro C O hO hOC
    rw [chunk, if_pos ⟨hO, hOC⟩]
    simp
  · intro cfg dp dn extract hO hOC
    have hc : chunk ([] : List Char) cfg.chunkSize cfg.overlap
        = .error .emptyDocumentError := by
      rw [chunk, if_pos ⟨hO, hOC⟩]
      simp
    simp only [processDocument, hc]

/-- Witness for C4: the three error behaviors at concrete inputs. -/
theorem chunk_config_empty_errors_witness :
    chunk ['a'] 2 5 = .error .configError ∧
    chunk ([] : List Char) 3 1 = .error .emptyDocumentError ∧
    processDocument ⟨3, 1, ⟨2, 10⟩⟩ "p" "n" [] scenarioExtract
      = .error .emptyDocumentError :=
  ⟨chunk_config_empty_errors.1 ['a'] 2 5 (by decide),
   chunk_config_empty_errors.2.1 3 1 (by decide) (by decide),
   chunk_config_empty_errors.2.2 ⟨3, 1, ⟨2, 10⟩⟩ "p" "n" scenarioExtract
     (by decide) (by decide)⟩

lemma chunkListSpec_pairwise (L C O : Nat) (cs : List Chunk)
    (h : chunkListSpec L C O 0 cs) :
    cs.Pairwise (fun a b => a.index ≤ b.index) := by
  rw [List.pairwise_iff_get]
  intro i j hij
  obtain ⟨-, hget, -, -⟩ := h
  have hi := (hget i.1 i.2).1
  have hj := (hget j.1 j.2).1
  have hi' : (cs.get i).index = i.1 := by simpa using hi
  have hj' : (cs.get j).index = j.1 := by simpa using hj
  rw [hi', hj']
  exact Nat.le_of_lt hij

lemma pairwise_le_of_const_chunkIndex (l : List Point) (k : Nat)
    (h : ∀ p ∈ l, p.chunkIndex = k) :
    l.Pairwise (fun p q => p.chunkIndex ≤ q.chunkIndex) := by
  induction l with
  | nil => exact List.Pairwise.nil
  | cons p rest ih =>
      refine List.Pairwise.cons ?_ (ih ?_)
      · intro q hq
        rw [h p (List.mem_cons_self _ _), h q (List.mem_cons_of_mem _ hq)]
      · intro q hq
        exact h q (List.mem_cons_of_mem _ hq)

lemma mem_stamp_chunkIndex (dp dn : String) (k : Nat) (raws : List RawPoint)
    (p : Point) (hp : p ∈ raws.map (stamp dp dn k)) : p.chunkIndex = k := by
  obtain ⟨r, -, hr⟩ := List.mem_map.mp hp
  rw [← hr]
  rfl

lemma processChunks_sorted (cfg : Config) (dp dn : String)
    (extract : Chunk → MemoryState → ExtractOutcome) :
    ∀ (cs : List Chunk) (mem : MemoryState) (q : QueueState)
      (stats : RunStats) (q' : QueueState) (stats' : RunStats),
      processChunks cfg dp dn extract cs mem q stats = some (q', stats') →
      cs.Pairwise (fun a b => a.index ≤ b.index) →
      q.delivered.Pairwise (fun p r => p.chunkIndex ≤ r.chunkIndex) →
      (∀ p ∈ q.delivered, ∀ c ∈ cs, p.chunkIndex ≤ c.index) →
      q'.delivered.Pairwise (fun p r => p.chunkIndex ≤ r.chunkIndex) := by
  intro cs
  induction cs with
  | nil =>
      intro mem q stats q' stats' h _ hord _
      injection h with h
      cases h
      exact hord
  | cons c rest ih =>
      intro mem q stats q' stats' h hpw hord hinv
      rw [List.pairwise_cons] at hpw
      cases hx : extract c mem with
      | success raws =>
          rw [processChunks_cons_success cfg dp dn extract c rest mem q stats
            raws hx] at h
          obtain ⟨extra, he, hs⟩ :=
            enqueue_delivered_decomp (raws.map (stamp dp dn c.index)) q
          have hextra : ∀ p ∈ extra, p.chunkIndex = c.index := by
            intro p hp
            exact mem_stamp_chunkIndex dp dn c.index raws p (hs.subset hp)
          apply ih _ _ _ _ _ h hpw.2
          · rw [he]
            apply List.pairwise_append.mpr
            refine ⟨hord, pairwise_le_of_const_chunkIndex extra c.index hextra,
              ?_⟩
            intro a ha b hb
            rw [hextra b hb]
            exact hinv a ha c (List.mem_cons_self _ _)
          · intro p hp c' hc'
            rw [he] at hp
            rcases List.mem_append.mp hp with hm | hm
            · exact hinv p hm c' (List.mem_cons_of_mem _ hc')
            · rw [hextra p hm]
              exact hpw.1 c' hc'
      | parseError =>
          rw [processChunks_cons_parseError cfg dp dn extract c rest mem q
            stats hx] at h
          exact ih _ _ _ _ _ h hpw.2 hord
            (fun p hp c' hc' => hinv p hp c' (List.mem_cons_of_mem _ hc'))
      | serviceError =>
          rw [processChunks_cons_serviceError cfg dp dn extract c rest mem q
            stats hx] at h
          exact ih _ _ _ _ _ h hpw.2 hord
            (fun p hp c' hc' => hinv p hp c' (List.mem_cons_of_mem _ hc'))
      | configError =>
          rw [processChunks_cons_configError cfg dp dn extract c rest mem q
            stats hx] at h
          exact absurd h (by simp)

/-- C5: within a single document the delivered sequence has non-decreasing
chunkIndex — any point delivered earlier has chunkIndex at most that of any
point delivered later — and enqueueing a batch that is itself ordered and
not below the already-delivered points preserves the ordering of the
drained/delivered output. -/
theorem delivered_chunkIndex_monotone :
    (∀ (cfg : Config) (dp dn : String) (text : List Char)
        (extract : Chunk → MemoryState → ExtractOutcome)
        (pts : List Point) (stats : RunStats),
      processDocument cfg dp dn text extract = .ok (pts, stats) →
      pts.Pairwise (fun p r => p.chunkIndex ≤ r.chunkIndex)) ∧
    (∀ (q : QueueState) (ps : List Point),
      q.delivered.Pairwise (fun p r => p.chunkIndex ≤ r.chunkIndex) →
      ps.Pairwise (fun p r => p.chunkIndex ≤ r.chunkIndex) →
      (∀ d ∈ q.delivered, ∀ p ∈ ps, d.chunkIndex ≤ p.chunkIndex) →
      (drain (enqueue q ps)).Pairwise
        (fun p r => p.chunkIndex ≤ r.chunkIndex)) := by
  constructor
  · intro cfg dp dn text extract pts stats h
    cases hc : chunk text cfg.chunkSize cfg.overlap with
    | error e =>
        cases e <;> simp only [processDocument, hc] at h <;>
          exact absurd h (by simp)
    | ok cs =>
        simp only [processDocument, hc] at h
        cases hp : processChunks cfg dp dn extract cs SlidingMemory.initial
            QueueState.initial ⟨0, 0, 0, 0⟩ with
        | none =>
            rw [hp] at h
            exact absurd h (by simp)
        | some r =>
            rw [hp] at h
            obtain ⟨q', stats'⟩ := r
            injection h with h
            injection h with h1 h2
            obtain ⟨⟨hinv1, hOC⟩, hlen, hcs⟩ :=
              chunk_ok_inv text cfg.chunkSize cfg.overlap cs hc
            have hspec := chunk_ok_spec text cfg.chunkSize cfg.overlap hlen
              hinv1 hOC
            rw [← hcs] at hspec
            have hpw := chunkListSpec_pairwise text.length cfg.chunkSize
              cfg.overlap cs hspec
            have := processChunks_sorted cfg dp dn extract cs
              SlidingMemory.initial QueueState.initial ⟨0, 0, 0, 0⟩ q' stats'
              hp hpw List.Pairwise.nil
              (by intro p hp'; simp [QueueState.initial] at hp')
            rw [← h1]
            exact this
  · intro q ps hq hps hcross
    obtain ⟨extra, he, hs⟩ := enqueue_delivered_decomp ps q
    rw [drain, he]
    apply List.pairwise_append.mpr
    exact ⟨hq, hps.sublist hs,
      fun a ha b hb => hcross a ha b (hs.subset hb)⟩

/-- Witness for C5: the ordering of the scenario run's delivered points. -/
theorem delivered_chunkIndex_monotone_witness :
    ([⟨.funding, "a", [], "s1", .high, "p", "n", 0⟩,
      ⟨.change, "b", [], "s2", .medium, "p", "n", 0⟩,
      ⟨.timeline, "c", [], "s3", .low, "p", "n", 2⟩] : List Point).Pairwise
      (fun p r => p.chunkIndex ≤ r.chunkIndex) :=
  delivered_chunkIndex_monotone.1 ⟨3, 1, ⟨2, 10⟩⟩ "p" "n"
    ['a', 'b', 'c', 'd', 'e', 'f'] scenarioExtract _ ⟨3, 2, 1, 3⟩ (by rfl)

lemma pointType_roundTrip (pt : PointType) :
    pointTypeOfString (pointTypeToString pt) = some pt := by
  cases pt <;> rfl

lemma confidence_roundTrip (cf : Confidence) :
    confidenceOfString (confidenceToString cf) = some cf := by
  cases cf <;> rfl

lemma parsePoint_exportPoint (p : Point) :
    parsePoint (exportPoint p) = some p := by
  rw [parsePoint]
  simp only [exportPoint, pointType_roundTrip, confidence_roundTrip]

/-- C8: exporting any sequence of points to the interchange records and
re-parsing the exported records yields the original point sequence,
field-for-field, with entity order preserved. -/
theorem export_parse_roundTrip :
    ∀ ps : List Point, parsePoints (exportPoints ps) = some ps := by
  intro ps
  induction ps with
  | nil => rfl
  | cons p rest ih =>
      rw [exportPoints, List.map_cons]
      rw [parsePoints, parsePoint_exportPoint]
      rw [exportPoints] at ih
      rw [ih]

/-- C9: the add-tag route is idempotent on a bill's tags — for every
existing bill and non-empty tag the first add responds with a bill, adding
the same tag to that response leaves it exactly as it was, adding a tag
already present returns the bill unchanged, and the operation never
introduces a duplicate entry into the tags array. -/
theorem addTag_idempotent :
    ∀ (bill : Bill) (tag : String) (now now' : Nat), tag ≠ "" →
      (∃ b₁, addTag (some tag) (some bill) now = .ok b₁) ∧
      ∀ b₁, addTag (some tag) (some bill) now = .ok b₁ →
        addTag (some tag) (some b₁) now' = .ok b₁ ∧
        (tag ∈ bill.tags → b₁ = bill) ∧
        (bill.tags.Nodup → b₁.tags.Nodup) := by
  intro bill tag now now' htag
  by_cases hmem : tag ∈ bill.tags
  · have hc : bill.tags.contains tag = true := by simpa using hmem
    have h1 : addTag (some tag) (some bill) now = .ok bill := by
      simp only [addTag, if_neg htag, hc, if_true]
    refine ⟨⟨bill, h1⟩, ?_⟩
    intro b₁ hb₁
    rw [h1] at hb₁
    injection hb₁ with hb₁
    subst hb₁
    exact ⟨h1.symm ▸ (by simp only [addTag, if_neg htag, hc, if_true]),
      fun _ => rfl, fun h => h⟩
  · have hc : ¬(bill.tags.contains tag = true) := by simpa using hmem
    have h1 : addTag (some tag) (some bill) now
        = .ok (saveBill now { bill with tags := bill.tags ++ [tag] }) := by
      simp only [addTag, if_neg htag, if_neg hc]
    refine ⟨⟨_, h1⟩, ?_⟩
    intro b₁ hb₁
    rw [h1] at hb₁
    injection hb₁ with hb₁
    subst hb₁
    have htags : (saveBill now { bill with tags := bill.tags ++ [tag] }).tags
        = bill.tags ++ [tag] := rfl
    refine ⟨?_, ?_, ?_⟩
    · have hc' : (saveBill now
          { bill with tags := bill.tags ++ [tag] }).tags.contains tag
            = true := by
        rw [htags]
        simp
      simp only [addTag, if_neg htag, hc', if_true]
    · intro hmem'
      exact absurd hmem' hmem
    · intro hnd
      rw [htags]
      refine List.Nodup.append hnd (List.nodup_singleton tag) ?_
      intro a ha hb
      rw [List.mem_singleton.mp hb] at ha
      exact hmem ha

/-- Witness for C9: adding the tag "y" twice to a concrete bill whose tags
are ["x"] leaves the response of the first add unchanged. -/
theorem addTag_idempotent_witness :
    addTag (some "y")
        (some ⟨"id", "b1", 0, false, "CA", ["f1"], "", "", "", [],
          ["x", "y"], [], 0, 5⟩) 7
      = .ok ⟨"id", "b1", 0, false, "CA", ["f1"], "", "", "", [],
          ["x", "y"], [], 0, 5⟩ :=
  ((addTag_idempotent
      ⟨"id", "b1", 0, false, "CA", ["f1"], "", "", "", [], ["x"], [], 0, 0⟩
      "y" 5 7 (by decide)).2
    ⟨"id", "b1", 0, false, "CA", ["f1"], "", "", "", [], ["x", "y"], [], 0, 5⟩
    (by rfl)).1

/-- C10: the download route guards the file index — whenever the supplied
fileIndex parameter does not parse to an integer i with
0 ≤ i < bill.filePath.length, the handler answers 400 Invalid file index for
every filesystem oracle (so no filesystem access can influence the result);
and whenever the handler streams or misses a file, the index parsed within
bounds and the path is the in-bounds entry of bill.filePath. -/
theorem download_guards_index :
    (∀ (bill : Bill) (s : String) (fs : String → Bool),
      (jsParseInt s = none ∨
        ∃ i, jsParseInt s = some i ∧
          (i < 0 ∨ (bill.filePath.length : Int) ≤ i)) →
      downloadFile (some bill) s fs = .invalidIndex) ∧
    (∀ (bill : Bill) (s : String) (fs : String → Bool) (p : String),
      downloadFile (some bill) s fs = .fileStream p ∨
        downloadFile (some bill) s fs = .fileNotFound p →
      ∃ i, jsParseInt s = some i ∧ 0 ≤ i ∧
        i.toNat < bill.filePath.length ∧
        p = bill.filePath.getD i.toNat "") := by
  constructor
  · intro bill s fs h
    rcases h with h | ⟨i, hi, hbad⟩
    · simp only [downloadFile, h]
    · simp only [downloadFile, hi]
      rw [if_pos hbad]
  · intro bill s fs p h
    cases hip : jsParseInt s with
    | none =>
        simp only [downloadFile, hip] at h
        rcases h with h | h <;> exact absurd h (by simp)
    | some i =>
        simp only [downloadFile, hip] at h
        by_cases hbad : i < 0 ∨ (bill.filePath.length : Int) ≤ i
        · rw [if_pos hbad] at h
          rcases h with h | h <;> exact absurd h (by simp)
        · rw [if_neg hbad] at h
          push_neg at hbad
          refine ⟨i, rfl, hbad.1, by omega, ?_⟩
          by_cases hfs : fs (bill.filePath.getD i.toNat "") = true
          · rw [if_pos hfs] at h
            rcases h with h | h
            · injection h with h
              exact h.symm
            · exact absurd h (by simp)
          · rw [if_neg hfs] at h
            rcases h with h | h
            · exact absurd h (by simp)
            · injection h with h
              exact h.symm

/-- Witness for C10: index 5 against a one-file bill is rejected with 400
regardless of the filesystem. -/
theorem download_guards_index_witness :
    downloadFile
        (some ⟨"id", "b1", 0, false, "CA", ["f1"], "", "", "", [], [], [],
          0, 0⟩)
        "5" (fun _ => false)
      = .invalidIndex :=
  download_guards_index.1
    ⟨"id", "b1", 0, false, "CA", ["f1"], "", "", "", [], [], [], 0, 0⟩
    "5" (fun _ => false)
    (Or.inr ⟨5, by rfl, Or.inr (by decide)⟩)


end BillBuster
